import Mathlib

/-!
Verification of the Chord_Kv node against its natural-language
specification.  The definitions below are shallow embeddings of the
Python sources: kv_store.py, util.py, lamport.py, chord_node.py,
gnutella.py, election.py, metrics.py.  Machine state (the KV map, the
Lamport clock, the election cache, the flood seen-set) is passed
explicitly; network calls are abstracted by oracles.
-/

/-- Python values arriving over JSON are opaque to the KV layer except for
nullness, which handle_get tests with an `is None` check.  A value is
modelled as an optional opaque payload: `none` is Python None / JSON null,
`some s` any non-null payload. -/
abbrev Val := Option String

/-- A stored KV entry: value, Lamport timestamp, writer id (kv_store.py,
value_map entries).  Timestamps are Python ints, writer ids Python
strings compared lexicographically by code point, as Lean strings are. -/
structure Entry where
  value : Val
  ts : Int
  writer : String
deriving DecidableEq

/-- KVStore._better (kv_store.py): True iff the new version should win.
The two early returns of the source are the two conditional branches. -/
def better (old_ts : Int) (old_writer : String) (new_ts : Int) (new_writer : String) : Bool :=
  if new_ts > old_ts then true
  else if new_ts = old_ts ∧ new_writer > old_writer then true
  else false

/-- The store map of a node: key to optional entry (KVStore.store). -/
abbrev Store := String → Option Entry

/-- A store holding no keys (KVStore.__init__). -/
def Store.empty : Store := fun _ => none

/-- KVStore.put (kv_store.py): install when the key is absent, otherwise
replace exactly when _better says the incoming version wins. -/
def KVStore.put (s : Store) (key : String) (value : Val) (lamport_ts : Int)
    (writer_id : String) : Store :=
  fun k =>
    if k = key then
      match s key with
      | none => some ⟨value, lamport_ts, writer_id⟩
      | some e =>
        if better e.ts e.writer lamport_ts writer_id then
          some ⟨value, lamport_ts, writer_id⟩
        else some e
    else s k

/-- KVStore.get (kv_store.py): returns store.get(key) and the store it
leaves behind, which is the same store. -/
def KVStore.get (s : Store) (key : String) : Option Entry × Store :=
  (s key, s)

/-- KVStore.dump (kv_store.py): returns a shallow copy of the map and the
store it leaves behind; the copy has the same contents as the store. -/
def KVStore.dump (s : Store) : Store × Store :=
  (s, s)

/-- The strict last-writer-wins order of spec section 3 on versions:
(ts_a, writer_a) below (ts_b, writer_b). -/
def vlt (a b : Entry) : Prop :=
  a.ts < b.ts ∨ (a.ts = b.ts ∧ a.writer < b.writer)

instance (a b : Entry) : Decidable (vlt a b) := by
  unfold vlt; infer_instance

/-- util.in_interval: membership of x in the circular interval from a to b
on the 2^32 ring, right-inclusive when inclusive_right. -/
def in_interval (x a b : Nat) (inclusive_right : Bool) : Bool :=
  if a < b then
    if inclusive_right then decide (a < x ∧ x ≤ b) else decide (a < x ∧ x < b)
  else if a > b then
    if inclusive_right then decide (x > a ∨ x ≤ b) else decide (x > a ∨ x < b)
  else inclusive_right

/-- LamportClock.tick (lamport.py): increment the clock; the method also
returns the new value, so one integer models both. -/
def LamportClock.tick (time : Int) : Int := time + 1

/-- LamportClock.update (lamport.py): on receiving a message timestamp,
set the clock to max(time, received_ts) + 1; the method returns the new
value. -/
def LamportClock.update (time received_ts : Int) : Int :=
  max time received_ts + 1

/-- The merge of one incoming version into one stored entry, the kernel of
KVStore.put on a present key: keep the stored entry unless _better says
the incoming one wins. -/
def cellPut (cur new : Entry) : Entry :=
  if better cur.ts cur.writer new.ts new.writer then new else cur

/-- One put request as received by the KV layer. -/
structure PutOp where
  key : String
  value : Val
  ts : Int
  writer : String
deriving DecidableEq

/-- A sequence of KVStore.put calls applied in order. -/
def applyPuts (l : List PutOp) (s : Store) : Store :=
  l.foldl (fun acc p => KVStore.put acc p.key p.value p.ts p.writer) s

/-- The puts writing the given versions to one fixed key. -/
def putsFor (K : String) (l : List Entry) : List PutOp :=
  l.map fun e => ⟨K, e.value, e.ts, e.writer⟩

/-- The node state touched by the /replica_put route: the Lamport clock
and the KV store (chord_node.py). -/
structure NodeState where
  clock : Int
  kv : Store

/-- The /replica_put route (chord_node.py): update the Lamport clock with
the message timestamp, then LWW-merge the entry into the KV store. -/
def replica_put (st : NodeState) (key : String) (value : Val) (ts : Int)
    (writer_id : String) : NodeState :=
  ⟨LamportClock.update st.clock ts, KVStore.put st.kv key value ts writer_id⟩

/-- The running best-version accumulator of ChordNode.handle_get
(chord_node.py): best_value starts as Python None, best_ts as -1,
best_writer as the empty string, found_any as False. -/
structure GetAcc where
  best_value : Val
  best_ts : Int
  best_writer : String
  found_any : Bool
deriving DecidableEq

/-- One replica response in the handle_get fan-out: none models an
unreachable replica or found=False, some e a found entry. -/
abbrev GetResp := Option Entry

/-- The body of the fan-out loop of ChordNode.handle_get: skip replicas
that did not return the key; otherwise record found_any and take the
incoming triple when best_value is None or the inlined LWW comparison
prefers it. -/
def getStep (acc : GetAcc) (res : GetResp) : GetAcc :=
  match res with
  | none => acc
  | some e =>
    if acc.best_value = none ∨ acc.best_ts < e.ts ∨
        (e.ts = acc.best_ts ∧ acc.best_writer < e.writer) then
      ⟨e.value, e.ts, e.writer, true⟩
    else
      ⟨acc.best_value, acc.best_ts, acc.best_writer, true⟩

/-- The read-merge of ChordNode.handle_get (chord_node.py): fold the
fan-out loop over the replica responses from the initial accumulator;
answer a miss when no replica reported the key, else the accumulated best
triple. -/
def handle_get_merge (responses : List GetResp) : Option Entry :=
  let acc := responses.foldl getStep ⟨none, -1, "", false⟩
  if acc.found_any then some ⟨acc.best_value, acc.best_ts, acc.best_writer⟩ else none

/-- The accumulator state after a found response was accepted. -/
def toAcc (e : Entry) : GetAcc := ⟨e.value, e.ts, e.writer, true⟩

/-- The counters of Metrics (metrics.py).  Latency sums are floats in the
source; the zero-total guard of snapshot does not depend on rounding, so
the sums are modelled as exact rationals. -/
structure Metrics where
  total_puts : Nat
  total_gets : Nat
  total_get_hits : Nat
  total_get_misses : Nat
  sum_put_latency : Rat
  sum_get_latency : Rat
  total_chord_lookups : Nat
  sum_chord_hops : Nat
  total_gnutella_queries : Nat
  sum_gnutella_forwarded : Nat

/-- The average fields of Metrics.snapshot (metrics.py). -/
structure Snapshot where
  avg_put_latency_sec : Rat
  avg_get_latency_sec : Rat
  avg_hops : Rat
  avg_forwarded_per_query : Rat

/-- Metrics.snapshot (metrics.py): each average is sum divided by total
when the corresponding total is truthy (nonzero), else 0.0. -/
def Metrics.snapshot (m : Metrics) : Snapshot :=
  { avg_put_latency_sec :=
      if m.total_puts ≠ 0 then m.sum_put_latency / m.total_puts else 0,
    avg_get_latency_sec :=
      if m.total_gets ≠ 0 then m.sum_get_latency / m.total_gets else 0,
    avg_hops :=
      if m.total_chord_lookups ≠ 0 then
        (m.sum_chord_hops : Rat) / m.total_chord_lookups
      else 0,
    avg_forwarded_per_query :=
      if m.total_gnutella_queries ≠ 0 then
        (m.sum_gnutella_forwarded : Rat) / m.total_gnutella_queries
      else 0 }

/-- The observable outcome of one g_query_received call: the collected
matches of the reply (represented by the reporting addresses; the source
field is named matches, a reserved word here), the forwarded count of the
returned stats, and the neighbours the node posted /g_query to. -/
structure GReply where
  found_matches : List String
  forwarded : Nat
  targets : List String
deriving DecidableEq

/-- GnutellaMixin.g_query_received (gnutella.py).  g_seen and g_neighbors
are this node's flood state, addr its own address, have_key the result of
the local _have_key check, and net the network oracle: net nb = some
(ms, f) when neighbour nb answers HTTP 200 with matches ms and forwarded
count f, none on timeout or error.  Returns the new seen-set and the
reply. -/
def g_query_received (g_seen : Finset String) (g_neighbors : List String)
    (addr : String) (have_key : Bool) (net : String → Option (List String × Nat))
    (msg_id : String) (_key : String) (ttl : Int) (origin : String) :
    Finset String × GReply :=
  if msg_id ∈ g_seen then (g_seen, ⟨[], 0, []⟩)
  else
    let seen' := insert msg_id g_seen
    let local_matches := if have_key then [addr] else []
    if ttl ≤ 0 then (seen', ⟨local_matches, 0, []⟩)
    else
      let tgts := g_neighbors.filter (fun nb => nb != origin)
      let folded := tgts.foldl
        (fun (acc : List String × Nat) nb =>
          match net nb with
          | some (ms, f) => (acc.1 ++ ms, acc.2 + 1 + f)
          | none => acc)
        (local_matches, 0)
      (seen', ⟨folded.1, folded.2, tgts⟩)

/-- A replica reference as handled by ChordNode: ring id and address. -/
structure NodeRef where
  id : Nat
  addr : String
deriving DecidableEq

/-- Per-key bully election state (election.py, ReplicaElectionState):
the cached leader priority, if any, and the in-election flag. -/
structure ElectionState where
  current_leader : Option Nat
  in_election : Bool
deriving DecidableEq

/-- The election state of a key never touched before
(ReplicaElectionState.__init__): no leader, not in election. -/
def ElectionState.init : ElectionState := ⟨none, false⟩

/-- ElectionManager.set_leader (election.py): record (or clear) the
leader and end the election. -/
def set_leader (_st : ElectionState) (leader : Option Nat) : ElectionState :=
  ⟨leader, false⟩

/-- ElectionManager.start_election_local (election.py): flip the state to
in-election, keeping the cached leader. -/
def start_election_local (st : ElectionState) : ElectionState :=
  ⟨st.current_leader, true⟩

/-- ElectionManager.get_leader (election.py). -/
def get_leader (st : ElectionState) : Option Nat :=
  st.current_leader

/-- The descending-id order used by the bully probe
(sorted(replicas, key=id, reverse=True) in chord_node.py). -/
def geId (a b : NodeRef) : Prop := b.id ≤ a.id

instance : DecidableRel geId :=
  fun a b => inferInstanceAs (Decidable (b.id ≤ a.id))

instance : IsTotal NodeRef geId :=
  ⟨fun a b => le_total b.id a.id⟩

instance : IsTrans NodeRef geId :=
  ⟨fun _ _ _ h1 h2 => le_trans h2 h1⟩

/-- The election loop of ChordNode.ensure_replica_leader: probe replicas
in descending id order, elect and cache the first live one; when no
replica is live, clear the leader. -/
def runElection (st : ElectionState) (replicas : List NodeRef)
    (alive : String → Bool) : ElectionState × Option Nat :=
  match (replicas.insertionSort geId).find? (fun r => alive r.addr) with
  | some r => (set_leader st (some r.id), some r.id)
  | none => (set_leader st none, none)

/-- ChordNode.ensure_replica_leader (chord_node.py), with liveness given
by the oracle alive (the _is_node_alive outcome per address): on an empty
replica set clear the leader; reuse a cached leader that is still in the
replica set and alive; otherwise start a local election and run the bully
probe.  Returns the new election state for the key and the returned
leader id. -/
def ensure_replica_leader (st : ElectionState) (replicas : List NodeRef)
    (alive : String → Bool) : ElectionState × Option Nat :=
  if replicas = [] then (set_leader st none, none)
  else
    match get_leader st with
    | some c =>
      if c ∈ replicas.map NodeRef.id then
        match replicas.find? (fun r => r.id == c) with
        | some leader =>
          if alive leader.addr then (st, some c)
          else runElection (start_election_local st) replicas alive
        | none => runElection (start_election_local st) replicas alive
      else runElection (start_election_local st) replicas alive
    | none => runElection (start_election_local st) replicas alive

/-- Repeated ensure_replica_leader calls for one key under a fixed
replica set and fixed liveness, starting from the untouched election
state of that key. -/
def leaderCalls (replicas : List NodeRef) (alive : String → Bool) :
    Nat → ElectionState × Option Nat
  | 0 => ensure_replica_leader ElectionState.init replicas alive
  | n + 1 => ensure_replica_leader (leaderCalls replicas alive n).1 replicas alive

/- ---------------------------------------------------------------- -/
/- Theorems -/
/- ---------------------------------------------------------------- -/

theorem better_iff (o n : Entry) :
    better o.ts o.writer n.ts n.writer = true ↔ vlt o n := by
  unfold better vlt
  split_ifs with h1 h2
  · simp only [true_iff]
    exact Or.inl h1
  · simp only [true_iff]
    exact Or.inr ⟨h2.1.symm, h2.2⟩
  · simp only [false_iff]
    rintro (h | ⟨he, hw⟩)
    · exact h1 h
    · exact h2 ⟨he.symm, hw⟩

theorem vlt_irrefl (a : Entry) : ¬ vlt a a := by
  rintro (h | ⟨-, h⟩) <;> exact lt_irrefl _ h

theorem vlt_trans {a b c : Entry} (h1 : vlt a b) (h2 : vlt b c) : vlt a c := by
  rcases h1 with h1 | ⟨e1, w1⟩ <;> rcases h2 with h2 | ⟨e2, w2⟩
  · exact Or.inl (lt_trans h1 h2)
  · exact Or.inl (e2 ▸ h1)
  · exact Or.inl (e1 ▸ h2)
  · exact Or.inr ⟨e1.trans e2, w1.trans w2⟩

theorem vlt_trichotomy (a b : Entry) :
    vlt a b ∨ (a.ts = b.ts ∧ a.writer = b.writer) ∨ vlt b a := by
  rcases lt_trichotomy a.ts b.ts with h | h | h
  · exact Or.inl (Or.inl h)
  · rcases lt_trichotomy a.writer b.writer with hw | hw | hw
    · exact Or.inl (Or.inr ⟨h, hw⟩)
    · exact Or.inr (Or.inl ⟨h, hw⟩)
    · exact Or.inr (Or.inr (Or.inr ⟨h.symm, hw⟩))
  · exact Or.inr (Or.inr (Or.inl h))

theorem vlt_congr_right {a b : Entry} (r : Entry) (hts : a.ts = b.ts)
    (hw : a.writer = b.writer) : vlt r a ↔ vlt r b := by
  unfold vlt
  rw [hts, hw]

theorem cellPut_spec (c n : Entry) :
    (cellPut c n = n ∧ vlt c n) ∨ (cellPut c n = c ∧ ¬ vlt c n) := by
  unfold cellPut
  cases hb : better c.ts c.writer n.ts n.writer
  · refine Or.inr ⟨by simp, fun h => ?_⟩
    have hb' := (better_iff c n).mpr h
    rw [hb] at hb'
    exact Bool.noConfusion hb'
  · exact Or.inl ⟨by simp, (better_iff c n).mp hb⟩

theorem cellPut_eq_or (c n : Entry) : cellPut c n = n ∨ cellPut c n = c := by
  rcases cellPut_spec c n with ⟨h, -⟩ | ⟨h, -⟩
  · exact Or.inl h
  · exact Or.inr h

theorem foldl_cellPut_mem (l : List Entry) (c : Entry) :
    l.foldl cellPut c ∈ c :: l := by
  induction l generalizing c with
  | nil => simp
  | cons e t ih =>
    have hm := ih (cellPut c e)
    simp only [List.foldl_cons]
    rcases List.mem_cons.mp hm with h0 | h0
    · rw [h0]
      rcases cellPut_eq_or c e with h | h <;> rw [h] <;> simp
    · exact List.mem_cons_of_mem _ (List.mem_cons_of_mem _ h0)

theorem foldl_cellPut_not_lt (l : List Entry) (c : Entry) :
    ∀ x ∈ c :: l, ¬ vlt (l.foldl cellPut c) x := by
  induction l generalizing c with
  | nil =>
    intro x hx
    rcases List.mem_cons.mp hx with rfl | h0
    · exact vlt_irrefl x
    · exact absurd h0 (List.not_mem_nil x)
  | cons e t ih =>
    intro x hx
    simp only [List.foldl_cons]
    have ihm : ¬ vlt (t.foldl cellPut (cellPut c e)) (cellPut c e) :=
      ih (cellPut c e) (cellPut c e) (List.mem_cons_self _ _)
    rcases List.mem_cons.mp hx with h0 | hx'
    · rw [h0]
      rcases cellPut_spec c e with ⟨heq, hce⟩ | ⟨heq, -⟩
      · intro hv
        exact ihm ((congrArg (vlt _) heq).symm ▸ vlt_trans hv hce)
      · exact (congrArg (vlt _) heq) ▸ ihm
    · rcases List.mem_cons.mp hx' with h1 | hx''
      · rw [h1]
        rcases cellPut_spec c e with ⟨heq, -⟩ | ⟨heq, hnce⟩
        · exact (congrArg (vlt _) heq) ▸ ihm
        · have ihc : ¬ vlt (t.foldl cellPut (cellPut c e)) c :=
            (congrArg (vlt _) heq) ▸ ihm
          intro hv
          rcases vlt_trichotomy c e with h | ⟨hts, hw⟩ | h
          · exact hnce h
          · exact ihc ((vlt_congr_right _ hts.symm hw.symm).mp hv)
          · exact ihc (vlt_trans hv h)
      · exact ih (cellPut c e) x (List.mem_cons_of_mem _ hx'')

theorem max_unique (l : List Entry)
    (hdist : l.Pairwise fun a b => ¬(a.ts = b.ts ∧ a.writer = b.writer))
    (r1 r2 : Entry) (h1 : r1 ∈ l) (h2 : r2 ∈ l)
    (d1 : ∀ x ∈ l, ¬ vlt r1 x) (d2 : ∀ x ∈ l, ¬ vlt r2 x) : r1 = r2 := by
  by_contra hne
  have hsymm : Symmetric fun a b : Entry => ¬(a.ts = b.ts ∧ a.writer = b.writer) :=
    fun a b hab ⟨x1, x2⟩ => hab ⟨x1.symm, x2.symm⟩
  rcases vlt_trichotomy r1 r2 with h | h | h
  · exact d1 r2 h2 h
  · exact hdist.forall hsymm h1 h2 hne h
  · exact d2 r1 h1 h

theorem put_lookup (s : Store) (key : String) (v : Val) (ts : Int) (w : String) :
    KVStore.put s key v ts w key =
      some (match s key with
            | none => ⟨v, ts, w⟩
            | some e => cellPut e ⟨v, ts, w⟩) := by
  unfold KVStore.put cellPut
  simp only [if_pos rfl]
  cases s key
  · rfl
  · dsimp only
    exact (apply_ite some _ _ _).symm

theorem put_other (s : Store) (key : String) (v : Val) (ts : Int) (w : String)
    (k : String) (hk : k ≠ key) : KVStore.put s key v ts w k = s k := by
  simp [KVStore.put, hk]

theorem put_preserves_some (s : Store) (key : String) (v : Val) (ts : Int)
    (w : String) (k : String) (e : Entry) (h : s k = some e) :
    ∃ e', KVStore.put s key v ts w k = some e' := by
  by_cases hk : k = key
  · subst hk
    refine ⟨cellPut e ⟨v, ts, w⟩, ?_⟩
    rw [put_lookup, h]
  · exact ⟨e, by rw [put_other s key v ts w k hk, h]⟩

theorem applyPuts_lookup_some (K : String) (l : List Entry) :
    ∀ (s : Store) (c : Entry), s K = some c →
      applyPuts (putsFor K l) s K = some (l.foldl cellPut c) := by
  induction l with
  | nil =>
    intro s c h
    simpa [applyPuts, putsFor] using h
  | cons e t ih =>
    intro s c h
    show applyPuts (putsFor K t) (KVStore.put s K e.value e.ts e.writer) K = _
    rw [List.foldl_cons]
    apply ih
    rw [put_lookup, h]

theorem applyPuts_lookup_none (K : String) (e : Entry) (t : List Entry)
    (s : Store) (h : s K = none) :
    applyPuts (putsFor K (e :: t)) s K = some (t.foldl cellPut e) := by
  show applyPuts (putsFor K t) (KVStore.put s K e.value e.ts e.writer) K = _
  apply applyPuts_lookup_some
  rw [put_lookup, h]

theorem better_self (ts : Int) (w : String) : better ts w ts w = false := by
  unfold better
  rw [if_neg (lt_irrefl ts), if_neg]
  rintro ⟨-, hw⟩
  exact lt_irrefl w hw

theorem cellPut_self (e : Entry) : cellPut e e = e := by
  unfold cellPut
  rw [better_self]
  simp

theorem cellPut_absorb (c n : Entry) : cellPut (cellPut c n) n = cellPut c n := by
  unfold cellPut
  cases hb : better c.ts c.writer n.ts n.writer
  · simp [hb]
  · simp [hb, better_self]

theorem put_idem (s : Store) (key : String) (v : Val) (ts : Int) (w : String) :
    KVStore.put (KVStore.put s key v ts w) key v ts w = KVStore.put s key v ts w := by
  funext k
  by_cases hk : k = key
  · subst hk
    rw [put_lookup, put_lookup]
    cases h : s k
    · exact congrArg some (cellPut_self _)
    · exact congrArg some (cellPut_absorb _ _)
  · rw [put_other _ key v ts w k hk, put_other _ key v ts w k hk]

/-- C1: for a key that already has a stored entry, put replaces it iff the
incoming version is strictly greater under the section-3 order (ts_new >
ts_old, or equal ts and lexicographically greater writer); for a key with
no stored entry, put always installs the incoming triple. -/
theorem put_lww (s : Store) (key : String) (v : Val) (ts : Int) (w : String) :
    (s key = none → KVStore.put s key v ts w key = some ⟨v, ts, w⟩) ∧
    (∀ e, s key = some e →
      KVStore.put s key v ts w key =
        if vlt e ⟨v, ts, w⟩ then some ⟨v, ts, w⟩ else some e) := by
  constructor
  · intro h
    simp [KVStore.put, h]
  · intro e he
    have hb := better_iff e ⟨v, ts, w⟩
    dsimp only at hb
    simp only [KVStore.put, if_pos rfl, he]
    by_cases hc : vlt e ⟨v, ts, w⟩
    · rw [hb.mpr hc]
      simp [hc]
    · have hf : better e.ts e.writer ts w = false := by
        cases hbe : better e.ts e.writer ts w
        · rfl
        · exact absurd (hb.mp hbe) hc
      rw [hf]
      simp [hc]

theorem put_lww_witness :
    KVStore.put Store.empty "k" (some "a") 1 "u" "k" = some ⟨some "a", 1, "u"⟩ ∧
    KVStore.put (KVStore.put Store.empty "k" (some "a") 1 "u") "k" (some "b") 2 "v" "k"
      = some ⟨some "b", 2, "v"⟩ := by
  constructor
  · exact (put_lww Store.empty "k" (some "a") 1 "u").1 rfl
  · have h := (put_lww (KVStore.put Store.empty "k" (some "a") 1 "u") "k"
      (some "b") 2 "v").2 ⟨some "a", 1, "u"⟩ (by rfl)
    rw [h, if_pos (by decide)]

/-- C2: on the 2^32 ring, in_interval realises the half-open circular
interval: for a < b it is a < x <= b (right-inclusive) or a < x < b; for
a > b the interval wraps (x > a or x <= b, resp. x > a or x < b); for
a = b it returns inclusive_right for every x. -/
theorem in_interval_spec (x a b : Nat) (inc : Bool)
    (_hx : x < 2 ^ 32) (_ha : a < 2 ^ 32) (_hb : b < 2 ^ 32) :
    (a < b → (in_interval x a b inc = true ↔
      (if inc then a < x ∧ x ≤ b else a < x ∧ x < b))) ∧
    (a > b → (in_interval x a b inc = true ↔
      (if inc then x > a ∨ x ≤ b else x > a ∨ x < b))) ∧
    (a = b → in_interval x a b inc = inc) := by
  refine ⟨?_, ?_, ?_⟩
  · intro h
    cases inc <;> simp [in_interval, h]
  · intro h
    have h' : ¬ a < b := by omega
    cases inc <;> simp [in_interval, h, h']
  · intro h
    subst h
    simp [in_interval]

theorem in_interval_spec_witness :
    in_interval 5 2 7 true = true := by
  have h := (in_interval_spec 5 2 7 true (by norm_num) (by norm_num) (by norm_num)).1
    (by norm_num)
  rw [h]
  simp

/-- C5: the Lamport clock is strictly monotone: tick moves the clock from
t to t + 1 and returns it; update moves it to max(t, ts) + 1 and returns
it; hence every tick or update strictly increases the clock, and after
update(ts) the clock strictly exceeds ts. -/
theorem lamport_monotonic (t ts : Int) :
    LamportClock.tick t = t + 1 ∧
    LamportClock.update t ts = max t ts + 1 ∧
    t < LamportClock.tick t ∧
    t < LamportClock.update t ts ∧
    ts < LamportClock.update t ts := by
  refine ⟨rfl, rfl, ?_, ?_, ?_⟩ <;>
    simp only [LamportClock.tick, LamportClock.update] <;> omega

theorem applyPuts_preserves_some (ops : List PutOp) :
    ∀ (s : Store) (k : String), s k ≠ none → applyPuts ops s k ≠ none := by
  induction ops with
  | nil => intro s k h; exact h
  | cons p t ih =>
    intro s k h
    show applyPuts t (KVStore.put s p.key p.value p.ts p.writer) k ≠ none
    apply ih
    cases hs : s k with
    | none => exact absurd hs h
    | some e =>
      obtain ⟨e', he'⟩ := put_preserves_some s p.key p.value p.ts p.writer k e hs
      rw [he']
      exact Option.some_ne_none e'

/-- C3 counterexample: two puts carrying the same version (ts, writer) but
different values are order-dependent (the first one wins on a tie), so for
such a multiset the final entry is not determined by the multiset alone,
contradicting the claim over every multiset of writes. -/
theorem lww_determinism_counterexample :
    applyPuts (putsFor "k" [⟨some "x", 1, "w"⟩, ⟨some "y", 1, "w"⟩]) Store.empty "k" ≠
      applyPuts (putsFor "k" [⟨some "y", 1, "w"⟩, ⟨some "x", 1, "w"⟩]) Store.empty "k" := by
  have h1 : applyPuts (putsFor "k" [⟨some "x", 1, "w"⟩, ⟨some "y", 1, "w"⟩]) Store.empty "k"
      = some ⟨some "x", 1, "w"⟩ := by with_unfolding_all rfl
  have h2 : applyPuts (putsFor "k" [⟨some "y", 1, "w"⟩, ⟨some "x", 1, "w"⟩]) Store.empty "k"
      = some ⟨some "y", 1, "w"⟩ := by with_unfolding_all rfl
  rw [h1, h2]
  decide

/-- C3 amended: for every key and every multiset of writes whose versions
(ts, writer) are pairwise distinct, applying the puts in any order to a
replica holding no entry for the key yields the unique version-maximal
write of the multiset; in particular the result is order-independent. -/
theorem lww_determinism (K : String) (s : Store) (l : List Entry)
    (hK : s K = none) (hne : l ≠ [])
    (hdist : l.Pairwise fun a b => ¬(a.ts = b.ts ∧ a.writer = b.writer)) :
    ∃ m, m ∈ l ∧ (∀ x ∈ l, x ≠ m → vlt x m) ∧
      ∀ l', l.Perm l' → applyPuts (putsFor K l') s K = some m := by
  obtain ⟨e, t, rfl⟩ := List.exists_cons_of_ne_nil hne
  have hsymm : Symmetric (fun a b : Entry => ¬(a.ts = b.ts ∧ a.writer = b.writer)) :=
    fun a b hab ⟨x1, x2⟩ => hab ⟨x1.symm, x2.symm⟩
  refine ⟨t.foldl cellPut e, foldl_cellPut_mem t e, ?_, ?_⟩
  · intro x hx hxne
    have hnl := foldl_cellPut_not_lt t e x hx
    rcases vlt_trichotomy x (t.foldl cellPut e) with h | ⟨h1, h2⟩ | h
    · exact h
    · exact absurd ⟨h1, h2⟩ (hdist.forall hsymm hx (foldl_cellPut_mem t e) hxne)
    · exact absurd h hnl
  · intro l' hperm
    have hne' : l' ≠ [] := by
      intro h
      rw [h] at hperm
      exact List.cons_ne_nil e t hperm.eq_nil
    obtain ⟨e', t', rfl⟩ := List.exists_cons_of_ne_nil hne'
    rw [applyPuts_lookup_none K e' t' s hK]
    have hm'mem : t'.foldl cellPut e' ∈ e :: t :=
      (hperm.mem_iff).mpr (foldl_cellPut_mem t' e')
    have hm'dom : ∀ x ∈ e :: t, ¬ vlt (t'.foldl cellPut e') x := fun x hx =>
      foldl_cellPut_not_lt t' e' x ((hperm.mem_iff).mp hx)
    exact congrArg some (max_unique (e :: t) hdist _ _ hm'mem (foldl_cellPut_mem t e)
      hm'dom (foldl_cellPut_not_lt t e))

theorem lww_determinism_witness :
    applyPuts (putsFor "k" [⟨some "b", 2, "v"⟩, ⟨some "a", 1, "u"⟩]) Store.empty "k"
      = some ⟨some "b", 2, "v"⟩ := by
  obtain ⟨m, hm, hdom, happ⟩ := lww_determinism "k" Store.empty
    [⟨some "a", 1, "u"⟩, ⟨some "b", 2, "v"⟩] rfl (by simp) (by decide)
  have hm2 : m = ⟨some "b", 2, "v"⟩ := by
    rcases List.mem_cons.mp hm with h | h
    · exfalso
      have hv := hdom ⟨some "b", 2, "v"⟩ (by simp) (by rw [h]; decide)
      rw [h] at hv
      exact absurd hv (by decide)
    · rcases List.mem_cons.mp h with h' | h'
      · exact h'
      · exact absurd h' (List.not_mem_nil m)
  exact hm2 ▸ happ [⟨some "b", 2, "v"⟩, ⟨some "a", 1, "u"⟩] (List.Perm.swap _ _ _)

/-- C6 counterexample: processing the same replica_put entry twice does not
leave the node in the same state as processing it once, because the route
updates the Lamport clock on every processing: with clock 0 and entry
("k", "v", 5, "w"), one processing leaves clock 6, two leave clock 7. -/
theorem replica_put_twice_counterexample :
    replica_put (replica_put ⟨0, Store.empty⟩ "k" (some "v") 5 "w") "k" (some "v") 5 "w" ≠
      replica_put ⟨0, Store.empty⟩ "k" (some "v") 5 "w" := by
  intro h
  have hc := congrArg NodeState.clock h
  simp only [replica_put, LamportClock.update] at hc
  rw [max_eq_right (by norm_num : (0 : Int) ≤ 5)] at hc
  rw [max_eq_left (by norm_num : (5 : Int) ≤ 5 + 1)] at hc
  norm_num at hc

/-- C6 amended: processing the same replica_put entry twice in a row yields
the same KV store state as processing it once (the LWW merge is
idempotent); only the Lamport clock differs, advancing by exactly one on
the repeated processing. -/
theorem replica_put_idempotent_kv (st : NodeState) (key : String) (v : Val)
    (ts : Int) (w : String) :
    (replica_put (replica_put st key v ts w) key v ts w).kv
      = (replica_put st key v ts w).kv ∧
    (replica_put (replica_put st key v ts w) key v ts w).clock
      = (replica_put st key v ts w).clock + 1 := by
  constructor
  · exact put_idem st.kv key v ts w
  · simp only [replica_put, LamportClock.update]
    rw [max_eq_left]
    have := le_max_right st.clock ts
    omega

/-- C9: KVStore reads do not change the store (get returns the entry and
the unchanged store; dump returns a copy equal to the store and the
unchanged store), put leaves every other key untouched and never removes a
present key, and hence the key set grows monotonically across any sequence
of puts. -/
theorem kvstore_frame (s : Store) (key : String) (v : Val) (ts : Int) (w : String) :
    (KVStore.get s key).2 = s ∧
    (KVStore.dump s).2 = s ∧
    (KVStore.dump s).1 = s ∧
    (∀ k, k ≠ key → KVStore.put s key v ts w k = s k) ∧
    (∀ k e, s k = some e → ∃ e', KVStore.put s key v ts w k = some e') ∧
    (∀ (ops : List PutOp) (k : String), s k ≠ none → applyPuts ops s k ≠ none) :=
  ⟨rfl, rfl, rfl, fun k hk => put_other s key v ts w k hk,
    fun k e he => put_preserves_some s key v ts w k e he,
    fun ops k h => applyPuts_preserves_some ops s k h⟩

theorem kvstore_frame_witness :
    KVStore.put (KVStore.put Store.empty "a" (some "x") 1 "w") "k" (some "y") 2 "u" "a"
      = KVStore.put Store.empty "a" (some "x") 1 "w" "a" ∧
    applyPuts [⟨"k", some "y", 2, "u"⟩] (KVStore.put Store.empty "a" (some "x") 1 "w") "a"
      ≠ none := by
  constructor
  · exact (kvstore_frame (KVStore.put Store.empty "a" (some "x") 1 "w")
      "k" (some "y") 2 "u").2.2.2.1 "a" (by decide)
  · exact (kvstore_frame (KVStore.put Store.empty "a" (some "x") 1 "w")
      "k" (some "y") 2 "u").2.2.2.2.2 [⟨"k", some "y", 2, "u"⟩] "a" (by decide)

/-- C10: Metrics.snapshot is total on empty counters: whenever one of the
four totals is zero the corresponding average field is 0, with no
division performed on that field. -/
theorem metrics_snapshot_total (m : Metrics) :
    (m.total_puts = 0 → (Metrics.snapshot m).avg_put_latency_sec = 0) ∧
    (m.total_gets = 0 → (Metrics.snapshot m).avg_get_latency_sec = 0) ∧
    (m.total_chord_lookups = 0 → (Metrics.snapshot m).avg_hops = 0) ∧
    (m.total_gnutella_queries = 0 →
      (Metrics.snapshot m).avg_forwarded_per_query = 0) := by
  refine ⟨?_, ?_, ?_, ?_⟩ <;> intro h <;> simp [Metrics.snapshot, h]

theorem metrics_snapshot_total_witness :
    (Metrics.snapshot ⟨0, 0, 0, 0, 0, 0, 0, 0, 0, 0⟩).avg_put_latency_sec = 0 ∧
    (Metrics.snapshot ⟨0, 0, 0, 0, 0, 0, 0, 0, 0, 0⟩).avg_forwarded_per_query = 0 :=
  ⟨(metrics_snapshot_total ⟨0, 0, 0, 0, 0, 0, 0, 0, 0, 0⟩).1 rfl,
   (metrics_snapshot_total ⟨0, 0, 0, 0, 0, 0, 0, 0, 0, 0⟩).2.2.2 rfl⟩

/-- C4 counterexample: the inlined comparison of handle_get treats a
stored null value like the initial no-best-yet sentinel, so with replica
responses [(null, 5, "z"), ("x", 3, "a")] the merge returns the
version (3, "a") although (5, "z") is strictly greater in the LWW order;
the claim that the LWW-maximum version is returned fails. -/
theorem handle_get_lww_counterexample :
    handle_get_merge [some ⟨none, 5, "z"⟩, some ⟨some "x", 3, "a"⟩]
      = some ⟨some "x", 3, "a"⟩ ∧
    vlt ⟨some "x", 3, "a"⟩ ⟨none, 5, "z"⟩ := by
  constructor
  · with_unfolding_all rfl
  · exact Or.inl (by norm_num)

theorem getStep_toAcc (e x : Entry) (he : e.value ≠ none) :
    getStep (toAcc e) (some x) = toAcc (cellPut e x) := by
  have hgs : getStep (toAcc e) (some x) =
      if e.value = none ∨ e.ts < x.ts ∨ (x.ts = e.ts ∧ e.writer < x.writer)
      then toAcc x else toAcc e := rfl
  rw [hgs]
  rcases cellPut_spec e x with ⟨heq, hvx⟩ | ⟨heq, hnvx⟩
  · rw [heq, if_pos]
    rcases hvx with h | ⟨h1, h2⟩
    · exact Or.inr (Or.inl h)
    · exact Or.inr (Or.inr ⟨h1.symm, h2⟩)
  · rw [heq, if_neg]
    rintro (h | h | ⟨h1, h2⟩)
    · exact he h
    · exact hnvx (Or.inl h)
    · exact hnvx (Or.inr ⟨h1.symm, h2⟩)

theorem foldl_getStep_found (t : List GetResp) :
    ∀ (e : Entry), e.value ≠ none → (∀ x : Entry, some x ∈ t → x.value ≠ none) →
      t.foldl getStep (toAcc e) = toAcc (t.reduceOption.foldl cellPut e) := by
  induction t with
  | nil => intro e _ _; rfl
  | cons r t ih =>
    intro e he ht
    simp only [List.foldl_cons]
    cases r with
    | none =>
      rw [show getStep (toAcc e) none = toAcc e from rfl,
        List.reduceOption_cons_of_none]
      exact ih e he (fun x hx => ht x (List.mem_cons_of_mem _ hx))
    | some x =>
      have hx : x.value ≠ none := ht x (List.mem_cons_self _ _)
      rw [getStep_toAcc e x he, List.reduceOption_cons_of_some, List.foldl_cons]
      apply ih
      · rcases cellPut_eq_or e x with h | h <;> rw [h]
        · exact hx
        · exact he
      · exact fun y hy => ht y (List.mem_cons_of_mem _ hy)

theorem handle_get_merge_eq (rs : List GetResp)
    (hnn : ∀ x : Entry, some x ∈ rs → x.value ≠ none) :
    handle_get_merge rs =
      match rs.reduceOption with
      | [] => none
      | e :: t => some (t.foldl cellPut e) := by
  induction rs with
  | nil => rfl
  | cons r t ih =>
    cases r with
    | none =>
      have h1 : handle_get_merge (none :: t) = handle_get_merge t := rfl
      rw [h1, List.reduceOption_cons_of_none]
      exact ih (fun x hx => hnn x (List.mem_cons_of_mem _ hx))
    | some x =>
      have hx : x.value ≠ none := hnn x (List.mem_cons_self _ _)
      have h1 : handle_get_merge (some x :: t) =
          (if (t.foldl getStep (toAcc x)).found_any then
            some ⟨(t.foldl getStep (toAcc x)).best_value,
              (t.foldl getStep (toAcc x)).best_ts,
              (t.foldl getStep (toAcc x)).best_writer⟩
          else none) := by
        with_unfolding_all rfl
      rw [h1, List.reduceOption_cons_of_some,
        foldl_getStep_found t x hx (fun y hy => hnn y (List.mem_cons_of_mem _ hy))]
      rfl

/-- C4 amended: handle_get answers a miss exactly when no queried replica
reports the key; when some replica does and no reported value is null,
the returned triple is one of the reported triples and its (ts, writer)
version is LWW-maximal among all of them.  (With a null value stored the
counterexample shows the maximality clause fails.) -/
theorem handle_get_lww (rs : List GetResp)
    (hnn : ∀ x : Entry, some x ∈ rs → x.value ≠ none) :
    (handle_get_merge rs = none ↔ ∀ r ∈ rs, r = none) ∧
    (∀ e, handle_get_merge rs = some e →
      some e ∈ rs ∧ ∀ x : Entry, some x ∈ rs → ¬ vlt e x) := by
  rw [handle_get_merge_eq rs hnn]
  cases hro : rs.reduceOption with
  | nil =>
    constructor
    · constructor
      · intro _ r hr
        cases r with
        | none => rfl
        | some x =>
          have hmem : x ∈ rs.reduceOption := List.reduceOption_mem_iff.mpr hr
          rw [hro] at hmem
          exact absurd hmem (List.not_mem_nil x)
      · intro _
        rfl
    · intro e he
      exact absurd he (by simp)
  | cons m t =>
    constructor
    · constructor
      · intro h
        exact absurd h (by simp)
      · intro hall
        have hm : some m ∈ rs :=
          List.reduceOption_mem_iff.mp (hro ▸ List.mem_cons_self m t)
        exact absurd (hall _ hm) (by simp)
    · intro e he
      have he' : e = t.foldl cellPut m := (Option.some.inj he).symm
      constructor
      · apply List.reduceOption_mem_iff.mp
        rw [hro, he']
        exact foldl_cellPut_mem t m
      · intro x hx
        have hxm : x ∈ m :: t := hro ▸ List.reduceOption_mem_iff.mpr hx
        rw [he']
        exact foldl_cellPut_not_lt t m x hxm

theorem handle_get_lww_witness :
    handle_get_merge [(none : GetResp)] = none :=
  (handle_get_lww [none] (fun x hx => by simp at hx)).1.mpr (by simp)

theorem g_query_received_seen (seen : Finset String) (nbs : List String)
    (addr : String) (hkb : Bool) (net : String → Option (List String × Nat))
    (msg_id k : String) (ttl : Int) (origin : String) (h : msg_id ∈ seen) :
    g_query_received seen nbs addr hkb net msg_id k ttl origin
      = (seen, ⟨[], 0, []⟩) := by
  simp [g_query_received, h]

/-- C7: a g_query_received call whose msg_id is already in the seen set
returns empty matches and forwarded = 0 and contacts no neighbour; any
other call puts msg_id into the seen set, forwards only when ttl > 0,
forwards exactly to the neighbours different from origin (so never back
to origin); and a repeated call for the same msg_id, whatever its other
arguments, forwards to nobody and reports nothing. -/
theorem g_query_received_spec (seen : Finset String) (nbs : List String)
    (addr : String) (hk : Bool) (net : String → Option (List String × Nat))
    (msg_id k : String) (ttl : Int) (origin : String) :
    (msg_id ∈ seen →
      g_query_received seen nbs addr hk net msg_id k ttl origin
        = (seen, ⟨[], 0, []⟩)) ∧
    (msg_id ∉ seen →
      msg_id ∈ (g_query_received seen nbs addr hk net msg_id k ttl origin).1 ∧
      (ttl ≤ 0 →
        (g_query_received seen nbs addr hk net msg_id k ttl origin).2.targets = []) ∧
      (0 < ttl →
        (g_query_received seen nbs addr hk net msg_id k ttl origin).2.targets
          = nbs.filter (fun nb => nb != origin)) ∧
      origin ∉ (g_query_received seen nbs addr hk net msg_id k ttl origin).2.targets) ∧
    (∀ (hk' : Bool) (net' : String → Option (List String × Nat)) (k' : String)
        (ttl' : Int) (origin' : String),
      (g_query_received (g_query_received seen nbs addr hk net msg_id k ttl origin).1
          nbs addr hk' net' msg_id k' ttl' origin').2 = ⟨[], 0, []⟩) := by
  have hseen1 : msg_id ∈ (g_query_received seen nbs addr hk net msg_id k ttl origin).1 := by
    by_cases h : msg_id ∈ seen
    · simp [g_query_received, h]
    · by_cases httl : ttl ≤ 0 <;> simp [g_query_received, h, httl]
  refine ⟨?_, ?_, ?_⟩
  · intro h
    exact g_query_received_seen seen nbs addr hk net msg_id k ttl origin h
  · intro h
    refine ⟨hseen1, ?_, ?_, ?_⟩
    · intro httl
      simp [g_query_received, h, httl]
    · intro httl
      have httl' : ¬ ttl ≤ 0 := by omega
      simp [g_query_received, h, httl']
    · by_cases httl : ttl ≤ 0
      · simp [g_query_received, h, httl]
      · simp [g_query_received, h, httl, List.mem_filter]
  · intro hk' net' k' ttl' origin'
    rw [g_query_received_seen _ nbs addr hk' net' msg_id k' ttl' origin' hseen1]

theorem g_query_received_spec_witness :
    (g_query_received ∅ ["n1", "o"] "me" true (fun _ => none) "m" "key" 5 "o").2.targets
      = ["n1"] ∧
    (g_query_received (g_query_received ∅ ["n1", "o"] "me" true (fun _ => none)
        "m" "key" 5 "o").1 ["n1", "o"] "me" true (fun _ => none)
        "m" "key" 5 "o").2 = ⟨[], 0, []⟩ := by
  constructor
  · have h := ((g_query_received_spec ∅ ["n1", "o"] "me" true (fun _ => none)
      "m" "key" 5 "o").2.1 (by simp)).2.2.1 (by norm_num)
    rw [h]
    rfl
  · exact (g_query_received_spec ∅ ["n1", "o"] "me" true (fun _ => none)
      "m" "key" 5 "o").2.2 true (fun _ => none) "key" 5 "o"

theorem find_sorted_max (alive : String → Bool) :
    ∀ (l : List NodeRef), l.Sorted geId →
      ∀ x, l.find? (fun r => alive r.addr) = some x →
        alive x.addr = true ∧ x ∈ l ∧
          ∀ y ∈ l, alive y.addr = true → y.id ≤ x.id := by
  intro l
  induction l with
  | nil =>
    intro _ x hx
    exact absurd hx (by simp)
  | cons h t ih =>
    intro hs x hx
    rw [List.sorted_cons] at hs
    cases ha : alive h.addr
    · rw [List.find?_cons_of_neg _ (by rw [ha]; simp)] at hx
      obtain ⟨hal, hmem, hmax⟩ := ih hs.2 x hx
      refine ⟨hal, List.mem_cons_of_mem _ hmem, ?_⟩
      intro y hy hyal
      rcases List.mem_cons.mp hy with h0 | h0
      · have hcontra := h0 ▸ hyal
        rw [ha] at hcontra
        exact Bool.noConfusion hcontra
      · exact hmax y h0 hyal
    · rw [List.find?_cons_of_pos _ (by simpa using ha)] at hx
      have hxh : x = h := (Option.some.inj hx).symm
      subst hxh
      refine ⟨ha, List.mem_cons_self _ _, ?_⟩
      intro y hy hyal
      rcases List.mem_cons.mp hy with h0 | h0
      · rw [h0]
      · exact hs.1 y h0

theorem runElection_result (replicas : List NodeRef) (alive : String → Bool) :
    ((∀ r ∈ replicas, alive r.addr = false) →
      ∀ st, runElection st replicas alive = (ElectionState.init, none)) ∧
    ((∃ r ∈ replicas, alive r.addr = true) →
      ∃ x : NodeRef, x ∈ replicas ∧ alive x.addr = true ∧
        (∀ y ∈ replicas, alive y.addr = true → y.id ≤ x.id) ∧
        ∀ st, runElection st replicas alive = (⟨some x.id, false⟩, some x.id)) := by
  have hperm := List.perm_insertionSort geId replicas
  constructor
  · intro hdead st
    have hnone : (replicas.insertionSort geId).find? (fun r => alive r.addr) = none := by
      rw [List.find?_eq_none]
      intro r hr hal
      have := hdead r (hperm.mem_iff.mp hr)
      rw [this] at hal
      exact Bool.noConfusion hal
    unfold runElection
    rw [hnone]
    rfl
  · intro hlive
    cases hfind : (replicas.insertionSort geId).find? (fun r => alive r.addr) with
    | none =>
      exfalso
      obtain ⟨r, hr, hal⟩ := hlive
      exact (List.find?_eq_none.mp hfind r (hperm.mem_iff.mpr hr)) hal
    | some x =>
      obtain ⟨hal, hmem, hmax⟩ :=
        find_sorted_max alive _ (List.sorted_insertionSort geId replicas) x hfind
      refine ⟨x, hperm.mem_iff.mp hmem, hal, ?_, ?_⟩
      · intro y hy hyal
        exact hmax y (hperm.mem_iff.mpr hy) hyal
      · intro st
        unfold runElection
        rw [hfind]
        rfl

/-- C8: with a fixed non-empty replica set and fixed liveness, the
repeated ensure_replica_leader calls for a key (whose election state
starts untouched, with no leader known) all return the same id, the id of
the highest-id live replica, caching it with the election closed; and
when no replica is live, every call, from any election state, clears the
cached leader and returns none. -/
theorem ensure_replica_leader_det (replicas : List NodeRef)
    (alive : String → Bool) (hne : replicas ≠ []) :
    ((∃ r ∈ replicas, alive r.addr = true) →
      ∃ m, (∃ r ∈ replicas, r.id = m ∧ alive r.addr = true) ∧
        (∀ r ∈ replicas, alive r.addr = true → r.id ≤ m) ∧
        ∀ n, leaderCalls replicas alive n = (⟨some m, false⟩, some m)) ∧
    ((∀ r ∈ replicas, alive r.addr = false) →
      ∀ st, ensure_replica_leader st replicas alive = (ElectionState.init, none)) := by
  constructor
  · intro hlive
    obtain ⟨x, hxmem, hxal, hxmax, hrun⟩ := (runElection_result replicas alive).2 hlive
    refine ⟨x.id, ⟨x, hxmem, rfl, hxal⟩, hxmax, ?_⟩
    have hstep : ensure_replica_leader ⟨some x.id, false⟩ replicas alive
        = (⟨some x.id, false⟩, some x.id) := by
      unfold ensure_replica_leader
      rw [if_neg hne]
      have hin : x.id ∈ replicas.map NodeRef.id := List.mem_map_of_mem _ hxmem
      dsimp only [get_leader]
      rw [if_pos hin]
      cases hfd : replicas.find? (fun r => r.id == x.id) with
      | none => exact hrun _
      | some leader =>
        dsimp only
        by_cases hal : alive leader.addr = true
        · rw [if_pos hal]
        · rw [if_neg hal]
          exact hrun _
    have hbase : leaderCalls replicas alive 0 = (⟨some x.id, false⟩, some x.id) := by
      show ensure_replica_leader ElectionState.init replicas alive = _
      unfold ensure_replica_leader
      rw [if_neg hne]
      exact hrun _
    intro n
    induction n with
    | zero => exact hbase
    | succ n ihn =>
      show ensure_replica_leader (leaderCalls replicas alive n).1 replicas alive = _
      rw [ihn]
      exact hstep
  · intro hdead st
    have hrunD := (runElection_result replicas alive).1 hdead
    unfold ensure_replica_leader
    rw [if_neg hne]
    cases hgl : get_leader st with
    | none => exact hrunD _
    | some c =>
      dsimp only
      by_cases hin : c ∈ replicas.map NodeRef.id
      · rw [if_pos hin]
        cases hfd : replicas.find? (fun r => r.id == c) with
        | none => exact hrunD _
        | some leader =>
          have hlmem : leader ∈ replicas := List.mem_of_find?_eq_some hfd
          dsimp only
          rw [if_neg (by rw [hdead leader hlmem]; simp)]
          exact hrunD _
      · rw [if_neg hin]
        exact hrunD _

theorem ensure_replica_leader_det_witness :
    (leaderCalls [⟨3, "a"⟩, ⟨7, "b"⟩, ⟨5, "c"⟩] (fun ad => ad != "b") 1).2
      = some 5 := by
  obtain ⟨m, ⟨r, hrmem, hrid, hral⟩, hmax, hcalls⟩ :=
    (ensure_replica_leader_det [⟨3, "a"⟩, ⟨7, "b"⟩, ⟨5, "c"⟩] (fun ad => ad != "b")
      (by simp)).1 ⟨⟨5, "c"⟩, by simp, by decide⟩
  have h5 := hmax ⟨5, "c"⟩ (by simp) (by decide)
  simp only at h5
  have hm5 : m = 5 := by
    simp only [List.mem_cons, List.not_mem_nil, or_false] at hrmem
    rcases hrmem with h | h | h
    · rw [h] at hrid
      simp at hrid
      omega
    · rw [h] at hral
      simp at hral
    · rw [h] at hrid
      simp at hrid
      omega
  rw [hcalls 1]
  simp [hm5]
